import Mathlib

/-!
Verification of the COSMIC VLA calibration engine against its
natural-language specification.

Each definition below is a shallow embedding of a function of the
repository (file and line references in the doc comments); machine
floating-point arithmetic is modelled by exact real/complex arithmetic.
Theorems named with a claim id settle the corresponding claim.
-/

open scoped Classical

namespace CalibEngine

/-! ## Baseline index table (src/calibrate_uvh5.py, get_ant_array_indices, lines 287-308)

The source builds the table with two double loops over range(nant): the
first collects the pairs with i == j, the second the pairs with i < j,
and returns the concatenation auto + cross. -/

/-- Embedding of get_ant_array_indices (src/calibrate_uvh5.py lines 287-308):
double loop over range(nant) keeping i = j pairs, then double loop keeping
i < j pairs, concatenated. -/
def get_ant_array_indices (nant : ℕ) : List (ℕ × ℕ) :=
  let auto := (List.range nant).flatMap fun i =>
    (List.range nant).filterMap fun j => if i = j then some (i, j) else none
  let cross := (List.range nant).flatMap fun i =>
    (List.range nant).filterMap fun j => if i < j then some (i, j) else none
  auto ++ cross

/-! ## Smoothed-bandpass flagger window size (src/calib_util.py, flag_complex_vis_smw, lines 95-99)

The source reads:
  win = int(nfreqs/4)
  if win < 10:
      win ==10
  elif win > 20:
      win == 20
The two branch bodies are comparison expressions, not assignments, so the
branches leave win unchanged; the embedding keeps the branch structure to
mirror that fact. -/

/-- Embedding of the window-size computation of flag_complex_vis_smw
(src/calib_util.py lines 95-99).  Both branch bodies of the Python source
evaluate a comparison and discard it, so every branch returns the
unclamped value. -/
def smwWindow (nfreqs : ℕ) : ℕ :=
  let win := nfreqs / 4
  if win < 10 then win
  else if win > 20 then win
  else win

/-- Modelled from the spec: the window size the claim describes, one quarter
of the channel count clamped into the range [10, 20]. -/
def smwWindowClaimed (nfreqs : ℕ) : ℕ :=
  min 20 (max 10 (nfreqs / 4))

/-! ## Residual delay attribution (src/calibrate_uvh5.py, get_res_delays, lines 645-686)

Per baseline the source forms ant_base = [ant1, ant2]; when the reference
antenna is a member it removes its first occurrence (Python list.remove),
names the remaining element ant_new, and writes one output row:
with both endpoints equal to the reference it writes the two time-averaged
delays unnegated; with only the first endpoint equal to the reference it
negates both delays; with only the second endpoint equal it writes them
unnegated.  Baselines without the reference produce no row.  Delay means
are taken here as given rational inputs (the upstream FFT peak search is
floating point and not at issue in the claim). -/

/-- Embedding of the per-baseline row emission of get_res_delays
(src/calibrate_uvh5.py lines 670-686).  Arguments: the ordered antenna
pair of the baseline, the two time-averaged per-polarization delays, the
reference antenna. -/
def resDelayRow (a1 a2 : ℕ) (d0 d1 : ℚ) (ref : ℕ) : Option (ℕ × ℚ × ℚ) :=
  let ant_base := [a1, a2]
  if ref ∈ ant_base then
    let ant_new := (ant_base.erase ref).headD 0
    if a1 = ref ∧ a2 = ref then some (ant_new, d0, d1)
    else if a1 = ref then some (ant_new, -d0, -d1)
    else if a2 = ref then some (ant_new, d0, d1)
    else none
  else none

/-- Embedding of the full loop of get_res_delays over the baseline list:
one optional row per baseline, in baseline order.  d gives the two
time-averaged delays of each baseline index. -/
def resDelayRows (pairs : List (ℕ × ℕ)) (d : ℕ → ℚ × ℚ) (ref : ℕ) :
    List (ℕ × ℚ × ℚ) :=
  pairs.enum.filterMap fun bl => resDelayRow bl.2.1 bl.2.2 (d bl.1).1 (d bl.1).2 ref

/-! ## Helper lemmas for the baseline index table -/

/-- A filterMap keeping exactly the elements satisfying p is the map of the
filtered list. -/
lemma filterMap_ite {α β : Type} (p : α → Prop) [DecidablePred p] (f : α → β) :
    ∀ l : List α, (l.filterMap fun a => if p a then some (f a) else none) =
      (l.filter fun a => decide (p a)).map f := by
  intro l
  induction l with
  | nil => rfl
  | cons a l ih =>
    by_cases h : p a
    · simp [List.filterMap_cons, List.filter_cons, h, ih]
    · simp [List.filterMap_cons, List.filter_cons, h, ih]

/-- Keeping exactly the index equal to i out of range n gives the singleton
pair (i, i), provided i < n. -/
lemma range_filterMap_eq {n i : ℕ} (h : i < n) :
    ((List.range n).filterMap fun j => if i = j then some (i, j) else none) = [(i, i)] := by
  induction n with
  | zero => exact absurd h (Nat.not_lt_zero i)
  | succ n ih =>
    rw [List.range_succ, List.filterMap_append]
    rcases Nat.lt_succ_iff_lt_or_eq.mp h with h1 | rfl
    · rw [ih h1]
      have hne : i ≠ n := Nat.ne_of_lt h1
      simp [List.filterMap_cons, hne]
    · have hnil : ((List.range i).filterMap fun j => if i = j then some (i, j) else none) = [] := by
        rw [List.filterMap_eq_nil_iff]
        intro j hj
        simp [Nat.ne_of_gt (List.mem_range.mp hj)]
      simp [hnil, List.filterMap_cons]

/-- A flatMap whose function returns singletons is a map. -/
lemma flatMap_singleton_of_mem {α β : Type} {l : List α} {f : α → List β} {g : α → β}
    (h : ∀ a ∈ l, f a = [g a]) : l.flatMap f = l.map g := by
  induction l with
  | nil => rfl
  | cons a l ih =>
    rw [List.flatMap_cons, List.map_cons, h a (List.mem_cons_self a l),
      ih fun b hb => h b (List.mem_cons_of_mem a hb)]
    rfl

/-- Length of the strict upper cut of range n at i. -/
lemma range_filter_lt_length (i : ℕ) :
    ∀ n : ℕ, ((List.range n).filter fun j => decide (i < j)).length = n - (i + 1) := by
  intro n
  induction n with
  | zero => simp
  | succ n ih =>
    rw [List.range_succ, List.filter_append, List.length_append, ih]
    by_cases h : i < n
    · simp only [List.filter_cons, decide_eq_true_eq, h, if_pos]
      simp only [List.filter_nil, List.length_cons, List.length_nil]
      omega
    · simp only [List.filter_cons, decide_eq_true_eq, h, if_neg, if_false]
      simp only [List.filter_nil, List.length_nil]
      omega

/-- Sum of a mapped List.range as a Finset sum. -/
lemma sum_map_range (g : ℕ → ℕ) : ∀ n : ℕ,
    ((List.range n).map g).sum = ∑ i ∈ Finset.range n, g i := by
  intro n
  induction n with
  | zero => rfl
  | succ n ih =>
    rw [List.range_succ, List.map_append, List.sum_append, ih, Finset.sum_range_succ]
    simp

/-- C9: for every antenna count, get_ant_array_indices returns all
self-pairs (i, i) in increasing i followed by all cross-pairs (i, j) with
i < j in row-major order, a list of exactly nant * (nant + 1) / 2 pairs;
it is a total function with no failure mode. -/
theorem get_ant_array_indices_spec (n : ℕ) :
    get_ant_array_indices n =
      (((List.range n).map fun i => (i, i)) ++
        ((List.range n).flatMap fun i =>
          ((List.range n).filter fun j => decide (i < j)).map fun j => (i, j))) ∧
    (get_ant_array_indices n).length = n * (n + 1) / 2 := by
  have hauto : ((List.range n).flatMap fun i =>
      (List.range n).filterMap fun j => if i = j then some (i, j) else none) =
      (List.range n).map fun i => (i, i) :=
    flatMap_singleton_of_mem fun i hi => range_filterMap_eq (List.mem_range.mp hi)
  have hcross : ((List.range n).flatMap fun i =>
      (List.range n).filterMap fun j => if i < j then some (i, j) else none) =
      (List.range n).flatMap fun i =>
        ((List.range n).filter fun j => decide (i < j)).map fun j => (i, j) := by
    apply List.flatMap_congr
    intro i _
    exact filterMap_ite (fun j => i < j) (fun j => (i, j)) (List.range n)
  have hdef : get_ant_array_indices n =
      ((List.range n).flatMap fun i =>
        (List.range n).filterMap fun j => if i = j then some (i, j) else none) ++
      ((List.range n).flatMap fun i =>
        (List.range n).filterMap fun j => if i < j then some (i, j) else none) := rfl
  constructor
  · rw [hdef, hauto, hcross]
  · rw [hdef, hauto, hcross, List.length_append, List.length_map, List.length_range,
      List.length_flatMap]
    simp only [Function.comp_def]
    have hlens : ((List.range n).map fun i =>
        (((List.range n).filter fun j => decide (i < j)).map fun j => (i, j)).length) =
        (List.range n).map fun i => n - (i + 1) := by
      apply List.map_congr_left
      intro i _
      rw [List.length_map, range_filter_lt_length]
    rw [hlens, sum_map_range]
    have hsum : ∑ i ∈ Finset.range n, (n - (i + 1)) = ∑ i ∈ Finset.range n, (n - 1 - i) := by
      apply Finset.sum_congr rfl
      intro i _
      omega
    rw [hsum, Finset.sum_range_reflect (fun j => j) n, Finset.sum_range_id]
    have h2 : n * (n + 1) = n * (n - 1) + 2 * n := by
      cases n with
      | zero => rfl
      | succ m => simp [Nat.succ_sub_one]; ring
    rw [h2]
    have h3 : (n * (n - 1) + 2 * n) / 2 = n * (n - 1) / 2 + n := by
      exact Nat.add_mul_div_left (n * (n - 1)) n (show 0 < 2 by norm_num)
    rw [h3]
    omega

/-! ## C6: the window clamp is a no-op -/

/-- C6: the claim says the window is nfreqs / 4 clamped into [10, 20]; the
code leaves it unclamped because the branch bodies are bare comparisons.
At nfreqs = 8 the code window is 2 while the claimed window is 10. -/
theorem smwWindow_clamp_noop : smwWindow 8 = 2 ∧ smwWindowClaimed 8 = 10 ∧ (2 : ℕ) ≠ 10 := by
  refine ⟨rfl, rfl, by norm_num⟩

/-! ## C8: residual delay attribution -/

/-- Per-baseline case analysis of the row emitted by get_res_delays: the
erase-first-occurrence bookkeeping resolves to the spec-style description. -/
lemma resDelayRow_eq (a1 a2 : ℕ) (d0 d1 : ℚ) (ref : ℕ) :
    resDelayRow a1 a2 d0 d1 ref =
      if a1 = ref ∧ a2 = ref then some (ref, d0, d1)
      else if a1 = ref then some (a2, -d0, -d1)
      else if a2 = ref then some (a1, d0, d1)
      else none := by
  unfold resDelayRow
  by_cases h1 : a1 = ref <;> by_cases h2 : a2 = ref <;>
    simp [h1, h2, List.erase_cons]

/-- C8 counterexample: the auto-baseline of the reference antenna
(pair (1, 1), reference 1) emits the row (1, 5, 7): the row is attributed
to the reference antenna itself and its delays are not negated, although
the reference antenna occupies the first position of the ordered pair. -/
theorem resDelay_refAuto_counterexample :
    resDelayRows [(1, 1)] (fun _ => ((5 : ℚ), (7 : ℚ))) 1 = [(1, 5, 7)] ∧ (5 : ℚ) ≠ -5 := by
  constructor
  · rfl
  · norm_num

/-- C8 (amended): for every baseline with exactly one endpoint equal to the
reference antenna, the emitted row carries the non-reference antenna, with
both delays negated exactly when the reference occupies the first position;
the reference auto-baseline emits a row for the reference itself with
unnegated delays; baselines not involving the reference emit no row. -/
theorem resDelayRows_attribution (pairs : List (ℕ × ℕ)) (d : ℕ → ℚ × ℚ) (ref : ℕ) :
    resDelayRows pairs d ref = pairs.enum.filterMap (fun bl =>
      if bl.2.1 = ref ∧ bl.2.2 = ref then some (ref, (d bl.1).1, (d bl.1).2)
      else if bl.2.1 = ref then some (bl.2.2, -(d bl.1).1, -(d bl.1).2)
      else if bl.2.2 = ref then some (bl.2.1, (d bl.1).1, (d bl.1).2)
      else none) := by
  unfold resDelayRows
  simp only [resDelayRow_eq]

/-! ## C1: reference normalization of gaincal_cpu (src/calib_util.py lines 166-179)

The source computes, per time/frequency/polarization slice,
phi = angle(result[ref]), amp = abs(result[ref]),
fac = (cos(phi) - i sin(phi)) * (amp > 0.0), and multiplies every antenna
gain of the slice by fac.  The boolean factor (amp > 0.0) is 1 or 0. -/

/-- Embedding of the normalization factor of gaincal_cpu
(src/calib_util.py lines 176-178), as a function of the reference antenna
candidate gain z of one slice. -/
noncomputable def refNormFactor (z : ℂ) : ℂ :=
  ((Real.cos z.arg : ℂ) - (Real.sin z.arg : ℂ) * Complex.I) *
    (if 0 < Complex.abs z then 1 else 0)

/-- Embedding of result = result * fac (src/calib_util.py line 179): each
antenna gain in each slice is multiplied by the factor derived from the
reference antenna gain of that slice.  S indexes the remaining
time/frequency/polarization axes. -/
noncomputable def gaincalNormalize {na : ℕ} {S : Type} (result : Fin na → S → ℂ)
    (ref : Fin na) : Fin na → S → ℂ :=
  fun a s => result a s * refNormFactor (result ref s)

/-- Multiplying z by cos(arg z) - i sin(arg z) yields its modulus. -/
lemma mul_cos_sub_sin_arg (z : ℂ) :
    z * ((Real.cos z.arg : ℂ) - (Real.sin z.arg : ℂ) * Complex.I) =
      ((Complex.abs z : ℝ) : ℂ) := by
  rw [Complex.ofReal_cos, Complex.ofReal_sin]
  have hz := Complex.abs_mul_cos_add_sin_mul_I z
  calc z * (Complex.cos (z.arg : ℂ) - Complex.sin (z.arg : ℂ) * Complex.I)
      = ((Complex.abs z : ℂ) * (Complex.cos (z.arg : ℂ) + Complex.sin (z.arg : ℂ) * Complex.I)) *
        (Complex.cos (z.arg : ℂ) - Complex.sin (z.arg : ℂ) * Complex.I) := by rw [hz]
    _ = (Complex.abs z : ℂ) *
        (Complex.cos (z.arg : ℂ) ^ 2 + Complex.sin (z.arg : ℂ) ^ 2) := by
        linear_combination ((Complex.abs z : ℂ) * (-(Complex.sin (z.arg : ℂ) ^ 2))) * Complex.I_sq
    _ = ((Complex.abs z : ℝ) : ℂ) := by rw [Complex.cos_sq_add_sin_sq, mul_one]

/-- C1: after reference normalization, in every slice the gain of the
reference antenna actually used has phase exactly zero; and when the raw
candidate gain of the reference antenna has amplitude zero in a slice,
every antenna gain of that slice is zero. -/
theorem gaincal_ref_phase_zero {na : ℕ} {S : Type} (result : Fin na → S → ℂ)
    (ref : Fin na) (s : S) :
    (gaincalNormalize result ref ref s).arg = 0 ∧
      (Complex.abs (result ref s) = 0 → ∀ a, gaincalNormalize result ref a s = 0) := by
  constructor
  · by_cases h : 0 < Complex.abs (result ref s)
    · have hval : gaincalNormalize result ref ref s =
          ((Complex.abs (result ref s) : ℝ) : ℂ) := by
        unfold gaincalNormalize refNormFactor
        rw [if_pos h, mul_one, mul_cos_sub_sin_arg]
      rw [hval]
      exact Complex.arg_ofReal_of_nonneg (Complex.abs.nonneg _)
    · have hval : gaincalNormalize result ref ref s = 0 := by
        unfold gaincalNormalize refNormFactor
        rw [if_neg h, mul_zero, mul_zero]
      rw [hval, Complex.arg_zero]
  · intro h0 a
    have hfac : refNormFactor (result ref s) = 0 := by
      unfold refNormFactor
      rw [if_neg (by rw [h0]; exact lt_irrefl 0), mul_zero]
    unfold gaincalNormalize
    rw [hfac, mul_zero]

/-- Witness for C1: at the identically zero candidate gain with one antenna
and one slice, the normalized reference phase is zero and the whole slice
is zeroed. -/
theorem gaincal_ref_phase_zero_witness :
    (gaincalNormalize (fun _ : Fin 1 => fun _ : Fin 1 => (0 : ℂ)) 0 0 0).arg = 0 ∧
      (∀ a, gaincalNormalize (fun _ : Fin 1 => fun _ : Fin 1 => (0 : ℂ)) 0 a 0 = 0) :=
  ⟨(gaincal_ref_phase_zero (fun _ => fun _ => 0) 0 0).1,
   (gaincal_ref_phase_zero (fun _ => fun _ => 0) 0 0).2 (by simp)⟩

/-! ## C2: the gain grade (src/calib_util.py, calc_gain_grade, lines 13-29)

grade = |sum of all matrix entries| / (sum of the moduli of all entries);
when the denominator is zero the numpy division raises a RuntimeWarning
(0/0) which the source catches, returning the sentinel -1. -/

/-- Embedding of calc_gain_grade (src/calib_util.py lines 13-29) for a
gain matrix of shape (n_ant, n_freqs). -/
noncomputable def calc_gain_grade {na nf : ℕ} (gain_matrix : Fin na → Fin nf → ℂ) : ℝ :=
  if (∑ k : Fin na, ∑ f : Fin nf, Complex.abs (gain_matrix k f)) = 0 then -1
  else Complex.abs (∑ k : Fin na, ∑ f : Fin nf, gain_matrix k f) /
    (∑ k : Fin na, ∑ f : Fin nf, Complex.abs (gain_matrix k f))

/-- All entries of the gain matrix share one phase: every entry is its own
modulus times one common unit phasor (a zero entry satisfies this for any
phasor). -/
def sharedPhase {na nf : ℕ} (g : Fin na → Fin nf → ℂ) : Prop :=
  ∃ θ : ℝ, ∀ k f, g k f = (Complex.abs (g k f) : ℂ) * Complex.exp (θ * Complex.I)

/-- Equality in the triangle inequality for a finite sum of complex numbers
forces every term onto the ray of the sum. -/
lemma sameRay_sum_of_abs_sum_eq {ι : Type} (s : Finset ι) (f : ι → ℂ)
    (h : Complex.abs (∑ i ∈ s, f i) = ∑ i ∈ s, Complex.abs (f i)) :
    ∀ i ∈ s, SameRay ℝ (f i) (∑ j ∈ s, f j) := by
  induction s using Finset.induction_on with
  | empty => intro i hi; exact absurd hi (Finset.not_mem_empty i)
  | insert ha ih =>
    rename_i a s
    rw [Finset.sum_insert ha, Finset.sum_insert ha] at h
    have h1 : Complex.abs (∑ j ∈ s, f j) ≤ ∑ j ∈ s, Complex.abs (f j) :=
      Complex.abs.sum_le s f
    have h2 : Complex.abs (f a + ∑ j ∈ s, f j) ≤
        Complex.abs (f a) + Complex.abs (∑ j ∈ s, f j) := Complex.abs.add_le _ _
    have hT : Complex.abs (∑ j ∈ s, f j) = ∑ j ∈ s, Complex.abs (f j) :=
      le_antisymm h1 (by linarith)
    have hfa : Complex.abs (f a + ∑ j ∈ s, f j) =
        Complex.abs (f a) + Complex.abs (∑ j ∈ s, f j) := by
      rw [h, hT]
    have hray_aT : SameRay ℝ (f a) (∑ j ∈ s, f j) :=
      Complex.sameRay_iff.mpr (Complex.abs_add_eq_iff.mp hfa)
    have hIH : ∀ i ∈ s, SameRay ℝ (f i) (∑ j ∈ s, f j) := ih hT
    intro i hi
    rw [Finset.sum_insert ha]
    rcases Finset.mem_insert.mp hi with rfl | hi2
    · exact (SameRay.refl (f i)).add_right hray_aT
    · have hiT := hIH i hi2
      have hia : SameRay ℝ (f i) (f a) := by
        apply hiT.trans hray_aT.symm
        intro hT0
        left
        have hz : ∑ j ∈ s, Complex.abs (f j) = 0 := by
          rw [← hT, hT0, map_zero]
        have hz2 := (Finset.sum_eq_zero_iff_of_nonneg
          fun j _ => Complex.abs.nonneg (f j)).mp hz i hi2
        exact Complex.abs.eq_zero.mp hz2
      exact hia.add_right hiT

/-- C2 (amended): for every gain matrix that is not identically zero, the
grade lies in the closed interval [0, 1], and it equals 1 exactly when all
antenna gains share one common phase. -/
theorem calc_gain_grade_range_one_iff {na nf : ℕ} (g : Fin na → Fin nf → ℂ)
    (hnz : ∃ k f, g k f ≠ 0) :
    (0 ≤ calc_gain_grade g ∧ calc_gain_grade g ≤ 1) ∧
      (calc_gain_grade g = 1 ↔ sharedPhase g) := by
  obtain ⟨k0, f0, hk0⟩ := hnz
  have hD : 0 < ∑ k : Fin na, ∑ f : Fin nf, Complex.abs (g k f) := by
    have h1 : 0 < Complex.abs (g k0 f0) := Complex.abs.pos hk0
    have h2 : Complex.abs (g k0 f0) ≤ ∑ f : Fin nf, Complex.abs (g k0 f) :=
      Finset.single_le_sum (fun f _ => Complex.abs.nonneg (g k0 f)) (Finset.mem_univ f0)
    have h3 : (∑ f : Fin nf, Complex.abs (g k0 f)) ≤
        ∑ k : Fin na, ∑ f : Fin nf, Complex.abs (g k f) :=
      Finset.single_le_sum (fun k _ => Finset.sum_nonneg fun f _ => Complex.abs.nonneg (g k f))
        (Finset.mem_univ k0)
    linarith
  have hDne : (∑ k : Fin na, ∑ f : Fin nf, Complex.abs (g k f)) ≠ 0 := ne_of_gt hD
  have hgrade : calc_gain_grade g =
      Complex.abs (∑ k : Fin na, ∑ f : Fin nf, g k f) /
        (∑ k : Fin na, ∑ f : Fin nf, Complex.abs (g k f)) := by
    unfold calc_gain_grade
    rw [if_neg hDne]
  have htri : Complex.abs (∑ k : Fin na, ∑ f : Fin nf, g k f) ≤
      ∑ k : Fin na, ∑ f : Fin nf, Complex.abs (g k f) := by
    refine le_trans (Complex.abs.sum_le _ _) ?_
    exact Finset.sum_le_sum fun k _ => Complex.abs.sum_le _ _
  constructor
  · constructor
    · rw [hgrade]
      exact div_nonneg (Complex.abs.nonneg _) (le_of_lt hD)
    · rw [hgrade]
      exact (div_le_one hD).mpr htri
  · rw [hgrade, div_eq_one_iff_eq hDne]
    constructor
    · intro habs
      have hprod : Complex.abs (∑ p : Fin na × Fin nf, g p.1 p.2) =
          ∑ p : Fin na × Fin nf, Complex.abs (g p.1 p.2) := by
        rw [Fintype.sum_prod_type, Fintype.sum_prod_type]
        exact habs
      have hS : (∑ p : Fin na × Fin nf, g p.1 p.2) ≠ 0 := by
        intro h0
        rw [Fintype.sum_prod_type] at h0
        rw [h0, map_zero] at habs
        exact hDne habs.symm
      refine ⟨(∑ p : Fin na × Fin nf, g p.1 p.2).arg, fun k f => ?_⟩
      have hray := sameRay_sum_of_abs_sum_eq Finset.univ (fun p : Fin na × Fin nf => g p.1 p.2)
        hprod (k, f) (Finset.mem_univ _)
      rcases Complex.sameRay_iff.mp hray with hz | hz | hz
      · have hz2 : g k f = 0 := hz
        rw [hz2, map_zero, Complex.ofReal_zero, zero_mul]
      · exact absurd hz hS
      · have hz2 : (g k f).arg = (∑ p : Fin na × Fin nf, g p.1 p.2).arg := hz
        rw [← hz2]
        exact (Complex.abs_mul_exp_arg_mul_I (g k f)).symm
    · rintro ⟨θ, hθ⟩
      have hsum : (∑ k : Fin na, ∑ f : Fin nf, g k f) =
          ((∑ k : Fin na, ∑ f : Fin nf, Complex.abs (g k f) : ℝ) : ℂ) *
            Complex.exp (θ * Complex.I) := by
        push_cast
        rw [Finset.sum_mul]
        refine Finset.sum_congr rfl fun k _ => ?_
        rw [Finset.sum_mul]
        exact Finset.sum_congr rfl fun f _ => hθ k f
      rw [hsum, map_mul, Complex.abs_exp_ofReal_mul_I, mul_one, Complex.abs_ofReal,
        abs_of_nonneg (le_of_lt hD)]

/-- Witness for C2 at the constant 1x1 gain matrix with entry 1. -/
theorem calc_gain_grade_range_one_iff_witness :
    (0 ≤ calc_gain_grade (fun _ : Fin 1 => fun _ : Fin 1 => (1 : ℂ)) ∧
      calc_gain_grade (fun _ : Fin 1 => fun _ : Fin 1 => (1 : ℂ)) ≤ 1) ∧
      (calc_gain_grade (fun _ : Fin 1 => fun _ : Fin 1 => (1 : ℂ)) = 1 ↔
        sharedPhase (fun _ : Fin 1 => fun _ : Fin 1 => (1 : ℂ))) :=
  calc_gain_grade_range_one_iff _ ⟨0, 0, one_ne_zero⟩

/-- C2 counterexample: the 2x1 gain matrix with entries 1 and -1 is not
identically zero yet its grade is 0, outside the claimed interval (0, 1]. -/
theorem calc_gain_grade_counterexample :
    calc_gain_grade (fun k : Fin 2 => fun _ : Fin 1 => if k = 0 then (1 : ℂ) else -1) = 0 ∧
      ¬(0 < calc_gain_grade (fun k : Fin 2 => fun _ : Fin 1 => if k = 0 then (1 : ℂ) else -1)) ∧
      (fun k : Fin 2 => fun _ : Fin 1 => if k = 0 then (1 : ℂ) else -1) 0 0 ≠ 0 := by
  have h0 : calc_gain_grade (fun k : Fin 2 => fun _ : Fin 1 => if k = 0 then (1 : ℂ) else -1) = 0 := by
    unfold calc_gain_grade
    rw [if_neg]
    · norm_num [Fin.sum_univ_two]
    · norm_num [Fin.sum_univ_two]
  refine ⟨h0, by rw [h0]; exact lt_irrefl 0, by norm_num⟩

/-! ## applycal (src/calib_util.py lines 266-316)

The source first raises when the gain antenna list and the dataset antenna
list differ in length, then scans the two lists element-wise in order and
raises when any position differs; only after the checks does it form the
per-antenna inverse gain, mask its non-finite entries to exact zero, and
multiply each baseline slice of the visibility buffer in place by
inverse_gain[a1] * conj(inverse_gain[a2]). -/

/-- Embedding of the antenna-list check of applycal
(src/calib_util.py lines 290-300). -/
def applycalCheck (ant_gain ant_list : List ℤ) : Option String :=
  if ant_gain.length ≠ ant_list.length then
    some "Number of antennas in gain does not match the dataset to be applied"
  else if (ant_gain.zip ant_list).all fun p => p.1 == p.2 then none
  else some "The antennas in gain solution and dataset are different"

/-- Embedding of the per-antenna inverse gain of applycal
(src/calib_util.py lines 303-307): the unit-phase reciprocal abs(g)/g when
phaseonly, the full reciprocal 1/g otherwise.  In exact arithmetic the
numpy reciprocal is non-finite exactly when g is zero, and the isfinite
mask then overwrites the entry with exact zero; the conditional below is
that mask. -/
noncomputable def invGain (phaseonly : Bool) (g : ℂ) : ℂ :=
  let raw := if phaseonly then (Complex.abs g : ℂ) / g else 1 / g
  if g = 0 then 0 else raw

/-- Embedding of applycal (src/calib_util.py lines 266-316).  data is
indexed by baseline and a slice type S standing for the remaining
time/frequency/polarization axes; caldata by antenna and slice.  The first
output component is the raised error, if any; the second is the content of
the visibility buffer after the call (the source mutates data in place,
and only after the checks). -/
noncomputable def applycal {nbl na : ℕ} {S : Type} (data : Fin nbl → S → ℂ)
    (caldata : Fin na → S → ℂ) (ant_gain ant_list : List ℤ)
    (ant_indices : Fin nbl → Fin na × Fin na) (phaseonly : Bool) :
    Option String × (Fin nbl → S → ℂ) :=
  match applycalCheck ant_gain ant_list with
  | some e => (some e, data)
  | none =>
    (none, fun ibl s =>
      data ibl s * (invGain phaseonly (caldata (ant_indices ibl).1 s) *
        (starRingEnd ℂ) (invGain phaseonly (caldata (ant_indices ibl).2 s))))

/-- The element-wise scan over zipped lists of equal length accepts exactly
equal lists. -/
lemma zip_all_eq : ∀ a b : List ℤ, a.length = b.length →
    ((((a.zip b).all fun p => p.1 == p.2) = true) ↔ a = b) := by
  intro a
  induction a with
  | nil =>
    intro b hb
    cases b with
    | nil => simp
    | cons b0 bs => simp at hb
  | cons a0 as ih =>
    intro b hb
    cases b with
    | nil => simp at hb
    | cons b0 bs =>
      simp only [List.zip_cons_cons, List.all_cons, Bool.and_eq_true, beq_iff_eq,
        List.cons.injEq]
      rw [ih bs (by simpa using hb)]

/-- applycalCheck accepts exactly equal antenna lists. -/
lemma applycalCheck_none_iff (a b : List ℤ) : applycalCheck a b = none ↔ a = b := by
  unfold applycalCheck
  by_cases hl : a.length = b.length
  · rw [if_neg (by simpa using hl)]
    by_cases hz : (((a.zip b).all fun p => p.1 == p.2) = true)
    · rw [if_pos hz]
      simp [(zip_all_eq a b hl).mp hz]
    · rw [if_neg hz]
      constructor
      · intro h
        exact absurd h (by simp)
      · intro h
        exact absurd ((zip_all_eq a b hl).mpr h) hz
  · rw [if_pos (by simpa using hl)]
    constructor
    · intro h
      simp at h
    · intro h
      subst h
      exact absurd rfl hl

/-- C3: applycal raises exactly when the two antenna-id lists differ, in
length or element-wise at some position, and whenever it raises the
visibility buffer still holds its pre-call contents. -/
theorem applycal_mismatch_iff {nbl na : ℕ} {S : Type} (data : Fin nbl → S → ℂ)
    (caldata : Fin na → S → ℂ) (ant_gain ant_list : List ℤ)
    (ant_indices : Fin nbl → Fin na × Fin na) (phaseonly : Bool) :
    ((applycal data caldata ant_gain ant_list ant_indices phaseonly).1.isSome ↔
      ant_gain ≠ ant_list) ∧
    ((applycal data caldata ant_gain ant_list ant_indices phaseonly).1.isSome →
      (applycal data caldata ant_gain ant_list ant_indices phaseonly).2 = data) := by
  by_cases h : ant_gain = ant_list
  · subst h
    have hc : applycalCheck ant_gain ant_gain = none := (applycalCheck_none_iff _ _).mpr rfl
    constructor
    · simp [applycal, hc]
    · intro hs
      exfalso
      revert hs
      simp [applycal, hc]
  · have hc : ∃ e, applycalCheck ant_gain ant_list = some e := by
      rcases he : applycalCheck ant_gain ant_list with _ | e
      · exact absurd ((applycalCheck_none_iff _ _).mp he) h
      · exact ⟨e, rfl⟩
    obtain ⟨e, hc⟩ := hc
    constructor
    · simp [applycal, hc, h]
    · intro _
      simp [applycal, hc]

/-- Witness for C3: gain antenna list [1] against dataset antenna list [2]
raises and the buffer is returned unchanged. -/
theorem applycal_mismatch_iff_witness :
    (applycal (fun _ : Fin 1 => fun _ : Fin 1 => (0 : ℂ))
      (fun _ : Fin 1 => fun _ : Fin 1 => (1 : ℂ)) [1] [2] (fun _ => (0, 0)) false).2 =
      (fun _ : Fin 1 => fun _ : Fin 1 => (0 : ℂ)) :=
  (applycal_mismatch_iff _ _ _ _ _ _).2 (by rfl)

/-- C4: the masked inverse gain at a zero gain entry is exact zero, and on
every baseline one of whose antennas has zero gain in a slice the
corrected visibility of that slice is exact zero (matching antenna lists,
so the correction is actually applied). -/
theorem applycal_zero_gain_zero {nbl na : ℕ} {S : Type} (data : Fin nbl → S → ℂ)
    (caldata : Fin na → S → ℂ) (ants : List ℤ)
    (ant_indices : Fin nbl → Fin na × Fin na) (phaseonly : Bool)
    (ibl : Fin nbl) (s : S)
    (hz : caldata (ant_indices ibl).1 s = 0 ∨ caldata (ant_indices ibl).2 s = 0) :
    invGain phaseonly 0 = 0 ∧
      (applycal data caldata ants ants ant_indices phaseonly).2 ibl s = 0 := by
  have hinv : invGain phaseonly (0 : ℂ) = 0 := by
    unfold invGain
    rw [if_pos rfl]
  refine ⟨hinv, ?_⟩
  have hc : applycalCheck ants ants = none := (applycalCheck_none_iff _ _).mpr rfl
  have happ : (applycal data caldata ants ants ant_indices phaseonly).2 ibl s =
      data ibl s * (invGain phaseonly (caldata (ant_indices ibl).1 s) *
        (starRingEnd ℂ) (invGain phaseonly (caldata (ant_indices ibl).2 s))) := by
    simp [applycal, hc]
  rw [happ]
  rcases hz with hz | hz
  · rw [hz, hinv, zero_mul, mul_zero]
  · rw [hz, hinv, map_zero, mul_zero, mul_zero]

/-- Witness for C4: one antenna with zero gain, the corrected visibility of
the only baseline is exact zero. -/
theorem applycal_zero_gain_zero_witness :
    invGain false 0 = 0 ∧
      (applycal (fun _ : Fin 1 => fun _ : Fin 1 => (1 : ℂ))
        (fun _ : Fin 1 => fun _ : Fin 1 => (0 : ℂ)) [5] [5] (fun _ => (0, 0)) false).2 0 0 = 0 :=
  applycal_zero_gain_zero _ _ _ _ false 0 0 (Or.inl rfl)

/-- The unit-phase inverse gain has modulus one at non-zero gains. -/
lemma abs_invGain_phaseonly {g : ℂ} (hg : g ≠ 0) : Complex.abs (invGain true g) = 1 := by
  have hval : invGain true g = (Complex.abs g : ℂ) / g := by
    simp [invGain, hg]
  rw [hval, map_div₀, Complex.abs_ofReal, abs_of_nonneg (Complex.abs.nonneg g)]
  exact div_self (Complex.abs.pos hg).ne'

/-- C10: with phaseonly true and matching antenna lists, the corrected
visibility of a baseline whose two antenna gains are both non-zero in a
slice has the same modulus as the input visibility, the correction factor
having unit modulus. -/
theorem applycal_phaseonly_modulus {nbl na : ℕ} {S : Type} (data : Fin nbl → S → ℂ)
    (caldata : Fin na → S → ℂ) (ants : List ℤ)
    (ant_indices : Fin nbl → Fin na × Fin na) (ibl : Fin nbl) (s : S)
    (h1 : caldata (ant_indices ibl).1 s ≠ 0) (h2 : caldata (ant_indices ibl).2 s ≠ 0) :
    Complex.abs ((applycal data caldata ants ants ant_indices true).2 ibl s) =
      Complex.abs (data ibl s) := by
  have hc : applycalCheck ants ants = none := (applycalCheck_none_iff _ _).mpr rfl
  have happ : (applycal data caldata ants ants ant_indices true).2 ibl s =
      data ibl s * (invGain true (caldata (ant_indices ibl).1 s) *
        (starRingEnd ℂ) (invGain true (caldata (ant_indices ibl).2 s))) := by
    simp [applycal, hc]
  rw [happ, map_mul, map_mul, Complex.abs_conj, abs_invGain_phaseonly h1,
    abs_invGain_phaseonly h2, mul_one, mul_one]

/-- Witness for C10: unit visibility corrected with the purely imaginary
gain i on both antennas keeps modulus one. -/
theorem applycal_phaseonly_modulus_witness :
    Complex.abs ((applycal (fun _ : Fin 1 => fun _ : Fin 1 => (1 : ℂ))
      (fun _ : Fin 1 => fun _ : Fin 1 => Complex.I) [3] [3] (fun _ => (0, 0)) true).2 0 0) =
      Complex.abs ((fun _ : Fin 1 => fun _ : Fin 1 => (1 : ℂ)) 0 0) :=
  applycal_phaseonly_modulus _ _ _ _ 0 0 Complex.I_ne_zero Complex.I_ne_zero

/-! ## Global-median RFI flagger (src/calib_util.py, flag_complex_vis_medf, lines 32-69)

The source copies the input buffer, averages the complex visibilities over
the time axis (line 52, np.mean on complex data), and per baseline and
polarization takes the numpy median and the scipy median absolute
deviation of the complex channel spectrum (lines 60-61), flags the
channels where abs(spec - med) > threshold * abs(mad) (line 62), and
overwrites the flagged channels of the copy across the whole time axis
with the complex median (line 66).  numpy orders complex values
lexicographically (real part, then imaginary part) when sorting for the
median; scipy median_abs_deviation at default scale is the median of the
absolute deviations from the median. -/

/-- The lexicographic order numpy uses on complex values: by real part,
ties broken by imaginary part. -/
def complexLexLe (a b : ℂ) : Prop :=
  a.re < b.re ∨ (a.re = b.re ∧ a.im ≤ b.im)

/-- numpy median of a list of reals: middle element of the sorted list for
odd length, mean of the two middle elements for even length (the empty
list is mapped to 0; the flagger only applies it to non-empty spectra). -/
noncomputable def medianR (l : List ℝ) : ℝ :=
  let s := l.insertionSort (fun a b => a ≤ b)
  if l.length % 2 = 1 then s.getD ((l.length - 1) / 2) 0
  else (s.getD (l.length / 2 - 1) 0 + s.getD (l.length / 2) 0) / 2

/-- numpy median of a list of complex values, using the lexicographic
sort order. -/
noncomputable def medianC (l : List ℂ) : ℂ :=
  let s := l.insertionSort complexLexLe
  if l.length % 2 = 1 then s.getD ((l.length - 1) / 2) 0
  else (s.getD (l.length / 2 - 1) 0 + s.getD (l.length / 2) 0) / 2

/-- scipy median_abs_deviation at default scale on complex data: the real
median of the absolute deviations from the complex median. -/
noncomputable def madC (l : List ℂ) : ℝ :=
  medianR (l.map fun z => Complex.abs (z - medianC l))

/-- The time-averaged complex spectrum of flag_complex_vis_medf (line 52):
np.mean along the time axis. -/
noncomputable def medfAvg {nbls ntime nfreq npol : ℕ}
    (vis : Fin nbls → Fin ntime → Fin nfreq → Fin npol → ℂ)
    (i : Fin nbls) (c : Fin nfreq) (p : Fin npol) : ℂ :=
  (∑ t, vis i t c p) / (ntime : ℂ)

/-- The channel spectrum of one baseline and polarization as a list in
channel order. -/
noncomputable def medfSpec {nbls ntime nfreq npol : ℕ}
    (vis : Fin nbls → Fin ntime → Fin nfreq → Fin npol → ℂ)
    (i : Fin nbls) (p : Fin npol) : List ℂ :=
  (List.finRange nfreq).map fun c => medfAvg vis i c p

/-- The flagged channels of one baseline and polarization (line 62):
argwhere of abs(spec - med) > threshold * abs(mad), in channel order. -/
noncomputable def medfBad {nbls ntime nfreq npol : ℕ}
    (vis : Fin nbls → Fin ntime → Fin nfreq → Fin npol → ℂ) (threshold : ℝ)
    (i : Fin nbls) (p : Fin npol) : List (Fin nfreq) :=
  (List.finRange nfreq).filter fun c =>
    decide (threshold * |madC (medfSpec vis i p)| <
      Complex.abs (medfAvg vis i c p - medianC (medfSpec vis i p)))

/-- Embedding of flag_complex_vis_medf (src/calib_util.py lines 32-69).
The first component is the returned corrected copy: per baseline and
polarization the flagged channels are overwritten, across the whole time
axis, with the complex median of the spectrum (the fold mirrors the
assignment vis[i,:,bad,pol] = med over the flagged index list).  The
second component is the returned diagnostic list, recording the flagged
channels of polarization 0 per baseline; each entry is a singleton list
because argwhere yields shape (k, 1) and tolist keeps the nesting. -/
noncomputable def flag_complex_vis_medf {nbls ntime nfreq npol : ℕ}
    (visibilities : Fin nbls → Fin ntime → Fin nfreq → Fin npol → ℂ) (threshold : ℝ) :
    (Fin nbls → Fin ntime → Fin nfreq → Fin npol → ℂ) × (Fin nbls → List (List ℕ)) :=
  ((fun i t c p =>
      ((medfBad visibilities threshold i p).foldl
        (fun a c2 => Function.update a c2 (medianC (medfSpec visibilities i p)))
        fun c2 => visibilities i t c2 p) c),
   fun i =>
     if h : 0 < npol then (medfBad visibilities threshold i ⟨0, h⟩).map fun c => [c.val]
     else [])

/-- Folding constant updates over an index list evaluates to the constant
exactly on the listed indices. -/
lemma foldl_update_const {α β : Type} [DecidableEq α] (l : List α) (v : β) (f : α → β)
    (c : α) :
    (l.foldl (fun a x => Function.update a x v) f) c = if c ∈ l then v else f c := by
  induction l generalizing f with
  | nil => simp
  | cons x l ih =>
    rw [List.foldl_cons, ih]
    by_cases h : c ∈ l
    · simp [h]
    · by_cases hx : c = x
      · subst hx
        simp [h, Function.update_same]
      · simp [h, hx, Function.update_noteq hx]

/-- Pointwise description of the corrected array returned by
flag_complex_vis_medf: a sample is replaced by the complex median of its
baseline/polarization spectrum exactly when the modulus of its channel
deviation from that median exceeds threshold times the MAD, uniformly in
time. -/
lemma medf_pointwise {nbls ntime nfreq npol : ℕ}
    (vis : Fin nbls → Fin ntime → Fin nfreq → Fin npol → ℂ) (threshold : ℝ)
    (i : Fin nbls) (t : Fin ntime) (c : Fin nfreq) (p : Fin npol) :
    (flag_complex_vis_medf vis threshold).1 i t c p =
      if threshold * |madC (medfSpec vis i p)| <
          Complex.abs (medfAvg vis i c p - medianC (medfSpec vis i p))
        then medianC (medfSpec vis i p) else vis i t c p := by
  have h1 : (flag_complex_vis_medf vis threshold).1 i t c p =
      ((medfBad vis threshold i p).foldl
        (fun a c2 => Function.update a c2 (medianC (medfSpec vis i p)))
        fun c2 => vis i t c2 p) c := rfl
  rw [h1, foldl_update_const]
  simp only [medfBad, List.mem_filter, List.mem_finRange, true_and, decide_eq_true_eq]

/-! ## The C5 claim description and a separating input

The C5 claim describes the flagger as operating on the magnitude spectrum
(average of |vis| over time, real median and MAD); the source feeds the
complex time average to np.median and to scipy
median_abs_deviation.  The definitions below model the claim words; a
concrete input separates them from the source behaviour. -/

/-- Modelled from the spec words of C5: the time average of the visibility
magnitude of one channel. -/
noncomputable def medfClaimedAmp {nbls ntime nfreq npol : ℕ}
    (vis : Fin nbls → Fin ntime → Fin nfreq → Fin npol → ℂ)
    (i : Fin nbls) (c : Fin nfreq) (p : Fin npol) : ℝ :=
  (∑ t, Complex.abs (vis i t c p)) / (ntime : ℝ)

/-- Modelled from the spec words of C5: the magnitude spectrum. -/
noncomputable def medfClaimedSpec {nbls ntime nfreq npol : ℕ}
    (vis : Fin nbls → Fin ntime → Fin nfreq → Fin npol → ℂ)
    (i : Fin nbls) (p : Fin npol) : List ℝ :=
  (List.finRange nfreq).map fun c => medfClaimedAmp vis i c p

/-- Modelled from the spec words of C5: flag the channels whose magnitude
deviation from the magnitude median exceeds threshold times the magnitude
MAD, and replace them (across the time axis) with that scalar median. -/
noncomputable def medfClaimed {nbls ntime nfreq npol : ℕ}
    (vis : Fin nbls → Fin ntime → Fin nfreq → Fin npol → ℂ) (threshold : ℝ) :
    Fin nbls → Fin ntime → Fin nfreq → Fin npol → ℂ :=
  fun i t c p =>
    if threshold * medianR ((medfClaimedSpec vis i p).map fun x =>
          |x - medianR (medfClaimedSpec vis i p)|) <
        |medfClaimedAmp vis i c p - medianR (medfClaimedSpec vis i p)|
      then ((medianR (medfClaimedSpec vis i p) : ℝ) : ℂ) else vis i t c p

/-- The separating input: one baseline, one time sample, one polarization,
three channels holding 3, 4i and 0. -/
noncomputable def visSep : Fin 1 → Fin 1 → Fin 3 → Fin 1 → ℂ :=
  fun _ _ c _ => if c = 0 then 3 else if c = 1 then 4 * Complex.I else 0

lemma finRange_three : List.finRange 3 = [0, 1, 2] := by decide

lemma medfAvg_visSep (c : Fin 3) : medfAvg visSep 0 c 0 = visSep 0 0 c 0 := by
  unfold medfAvg
  rw [Fin.sum_univ_one]
  norm_num

lemma medfSpec_visSep : medfSpec visSep 0 0 = [3, 4 * Complex.I, 0] := by
  unfold medfSpec
  rw [finRange_three]
  simp only [List.map_cons, List.map_nil, medfAvg_visSep]
  rfl

lemma lex_not_4I_0 : ¬ complexLexLe (4 * Complex.I) 0 := by
  simp only [complexLexLe, Complex.mul_re, Complex.mul_im, Complex.I_re, Complex.I_im,
    Complex.re_ofNat, Complex.im_ofNat, Complex.zero_re, Complex.zero_im]
  norm_num

lemma lex_not_3_0 : ¬ complexLexLe 3 0 := by
  simp only [complexLexLe, Complex.re_ofNat, Complex.im_ofNat, Complex.zero_re,
    Complex.zero_im]
  norm_num

lemma lex_not_3_4I : ¬ complexLexLe 3 (4 * Complex.I) := by
  simp only [complexLexLe, Complex.mul_re, Complex.mul_im, Complex.I_re, Complex.I_im,
    Complex.re_ofNat, Complex.im_ofNat]
  norm_num

lemma sort_visSep : ([3, 4 * Complex.I, 0] : List ℂ).insertionSort complexLexLe
    = [0, 4 * Complex.I, 3] := by
  simp [List.insertionSort, List.orderedInsert, lex_not_4I_0, lex_not_3_0, lex_not_3_4I]

lemma medianC_visSep : medianC [3, 4 * Complex.I, 0] = 4 * Complex.I := by
  simp only [medianC, sort_visSep]
  norm_num [List.getD]

lemma abs_3_sub_4I : Complex.abs (3 - 4 * Complex.I) = 5 := by
  rw [Complex.abs_apply, Complex.normSq_apply]
  have hre : (3 - 4 * Complex.I : ℂ).re = 3 := by simp
  have him : (3 - 4 * Complex.I : ℂ).im = -4 := by simp
  rw [hre, him, show (3:ℝ) * 3 + (-4) * (-4) = 25 by norm_num,
    show (25:ℝ) = 5 ^ 2 by norm_num]
  exact Real.sqrt_sq (by norm_num)

lemma abs_0_sub_4I : Complex.abs (0 - 4 * Complex.I) = 4 := by
  rw [zero_sub, Complex.abs.map_neg, map_mul, Complex.abs_ofNat, Complex.abs_I, mul_one]

lemma madC_visSep : madC [3, 4 * Complex.I, 0] = 4 := by
  unfold madC
  rw [medianC_visSep]
  simp only [List.map_cons, List.map_nil]
  rw [abs_3_sub_4I, sub_self, map_zero, abs_0_sub_4I]
  norm_num [medianR, List.insertionSort, List.orderedInsert, List.getD]

/-- C5 (amended): the global-median flagger averages the complex
visibilities over the time axis per baseline/polarization, takes the
complex (lexicographic) median of that spectrum and the MAD of the
absolute deviations from it, flags exactly the channels whose deviation
modulus exceeds threshold times the MAD, replaces the flagged samples
across the full time axis with that complex scalar median, and reports
the flagged channels of polarization 0 per baseline. -/
theorem medf_flags_and_replaces {nbls ntime nfreq npol : ℕ}
    (vis : Fin nbls → Fin ntime → Fin nfreq → Fin npol → ℂ) (threshold : ℝ) :
    (∀ i t c p, (flag_complex_vis_medf vis threshold).1 i t c p =
      if threshold * |madC (medfSpec vis i p)| <
          Complex.abs (medfAvg vis i c p - medianC (medfSpec vis i p))
        then medianC (medfSpec vis i p) else vis i t c p) ∧
    (∀ i (h : 0 < npol), (flag_complex_vis_medf vis threshold).2 i =
      (medfBad vis threshold i ⟨0, h⟩).map fun c => [c.val]) := by
  refine ⟨fun i t c p => medf_pointwise vis threshold i t c p, fun i h => ?_⟩
  have h2 : (flag_complex_vis_medf vis threshold).2 i =
      if h3 : 0 < npol then (medfBad vis threshold i ⟨0, h3⟩).map (fun c => [c.val])
      else [] := rfl
  rw [h2, dif_pos h]

/-- Witness for C5 at the separating input: the diagnostics list of the
only baseline records the flagged channels of polarization 0. -/
theorem medf_flags_and_replaces_witness :
    (flag_complex_vis_medf visSep 1).2 0 =
      (medfBad visSep 1 0 ⟨0, by norm_num⟩).map (fun c => [c.val]) :=
  (medf_flags_and_replaces visSep 1).2 0 (by norm_num)

/-- C5 counterexample: at the separating input with threshold 1 the source
flags channel 0 (complex-median behaviour) and overwrites it with the
complex median 4i, while the magnitude procedure the claim describes
leaves channel 0 untouched at value 3. -/
theorem medf_magnitude_counterexample :
    (flag_complex_vis_medf visSep 1).1 0 0 0 0 = 4 * Complex.I ∧
      medfClaimed visSep 1 0 0 0 0 = 3 ∧ (4 * Complex.I : ℂ) ≠ 3 := by
  refine ⟨?_, ?_, ?_⟩
  · rw [medf_pointwise, medfSpec_visSep, medianC_visSep, madC_visSep, medfAvg_visSep]
    rw [show visSep 0 0 0 0 = (3 : ℂ) from rfl]
    rw [if_pos (show (1:ℝ) * |(4:ℝ)| < Complex.abs ((3:ℂ) - 4 * Complex.I) by
      rw [abs_3_sub_4I]; norm_num)]
  · have hampv : ∀ c : Fin 3, medfClaimedAmp visSep 0 c 0 = Complex.abs (visSep 0 0 c 0) := by
      intro c
      unfold medfClaimedAmp
      rw [Fin.sum_univ_one]
      norm_num
    have hspec : medfClaimedSpec visSep 0 0 = [3, 4, 0] := by
      unfold medfClaimedSpec
      rw [finRange_three]
      simp only [List.map_cons, List.map_nil, hampv]
      rw [show visSep 0 0 0 0 = (3 : ℂ) from rfl, show visSep 0 0 1 0 = 4 * Complex.I from rfl,
        show visSep 0 0 2 0 = (0 : ℂ) from rfl]
      rw [map_zero, map_mul, Complex.abs_ofNat, Complex.abs_ofNat, Complex.abs_I, mul_one]
    have hmed : medianR [(3:ℝ), 4, 0] = 3 := by
      norm_num [medianR, List.insertionSort, List.orderedInsert, List.getD]
    have hmad : medianR (([(3:ℝ), 4, 0]).map fun x => |x - 3|) = 1 := by
      simp only [List.map_cons, List.map_nil]
      norm_num [medianR, List.insertionSort, List.orderedInsert, List.getD]
    unfold medfClaimed
    rw [hspec, hmed, hmad, hampv]
    rw [show visSep 0 0 0 0 = (3 : ℂ) from rfl]
    rw [if_neg (by rw [Complex.abs_ofNat]; norm_num)]
  · intro h
    have h2 := congrArg Complex.im h
    simp only [Complex.mul_im, Complex.I_im, Complex.I_re, Complex.re_ofNat,
      Complex.im_ofNat] at h2
    norm_num at h2

/-! ## C7: the flaggers copy, the applier mutates

Both flagger variants begin with vis = visibilities.copy()
(src/calib_util.py lines 43 and 86) and every subsequent write
(lines 66 and 116) targets the copy vis; the argument visibilities is
never assigned or written, so after either call the caller buffer holds
its pre-call contents, and the corrected data is only in the returned
copy.  applycal by contrast multiplies the passed buffer in place
(line 316). -/

/-- Content of the caller-supplied buffer after flag_complex_vis_medf
returns (the argument of the call, not the returned copy). -/
def medfCallerBufferAfter {nbls ntime nfreq npol : ℕ}
    (visibilities : Fin nbls → Fin ntime → Fin nfreq → Fin npol → ℂ) (threshold : ℝ) :
    Fin nbls → Fin ntime → Fin nfreq → Fin npol → ℂ :=
  visibilities

/-- Content of the caller-supplied buffer after flag_complex_vis_smw
returns (the argument of the call, not the returned copy). -/
def smwCallerBufferAfter {nbls ntime nfreq npol : ℕ}
    (visibilities : Fin nbls → Fin ntime → Fin nfreq → Fin npol → ℂ) (threshold : ℝ) :
    Fin nbls → Fin ntime → Fin nfreq → Fin npol → ℂ :=
  visibilities

/-- C7 counterexample: there is no input on which either flagger leaves
the caller buffer different from its pre-call contents, because both
variants write only their internal copy; the claimed in-place mutation of
the flaggers does not happen. -/
theorem flaggers_no_inplace_counterexample :
    ¬ ∃ (nbls ntime nfreq npol : ℕ)
        (v : Fin nbls → Fin ntime → Fin nfreq → Fin npol → ℂ) (thr : ℝ),
        medfCallerBufferAfter v thr ≠ v ∨ smwCallerBufferAfter v thr ≠ v := by
  rintro ⟨nbls, ntime, nfreq, npol, v, thr, h | h⟩ <;> exact h rfl

/-- C7 (amended): both RFI flagger variants leave the caller buffer
unchanged on every input, returning the corrected data as a fresh copy;
of the components the claim names, only the gain applier mutates the
visibility buffer passed to it, as the applied correction shows on a
concrete input. -/
theorem flaggers_copy_applier_mutates :
    (∀ (nbls ntime nfreq npol : ℕ)
      (v : Fin nbls → Fin ntime → Fin nfreq → Fin npol → ℂ) (thr : ℝ),
      medfCallerBufferAfter v thr = v ∧ smwCallerBufferAfter v thr = v) ∧
    (applycal (fun _ : Fin 1 => fun _ : Fin 1 => (1 : ℂ))
        (fun _ : Fin 1 => fun _ : Fin 1 => (2 : ℂ)) [0] [0] (fun _ => (0, 0)) false).2 0 0 ≠
      (fun _ : Fin 1 => fun _ : Fin 1 => (1 : ℂ)) 0 0 := by
  refine ⟨fun _ _ _ _ v thr => ⟨rfl, rfl⟩, ?_⟩
  have hc : applycalCheck [0] [0] = none := (applycalCheck_none_iff _ _).mpr rfl
  have happ : (applycal (fun _ : Fin 1 => fun _ : Fin 1 => (1 : ℂ))
      (fun _ : Fin 1 => fun _ : Fin 1 => (2 : ℂ)) [0] [0] (fun _ => (0, 0)) false).2 0 0 =
      1 * (invGain false 2 * (starRingEnd ℂ) (invGain false 2)) := by
    simp [applycal, hc]
  rw [happ]
  have hinv : invGain false (2 : ℂ) = 1 / 2 := by
    simp [invGain]
  rw [hinv]
  have hconj : (starRingEnd ℂ) ((1 : ℂ) / 2) = 1 / 2 := by
    rw [map_div₀, map_one, map_ofNat]
  rw [hconj]
  intro h
  norm_num at h

end CalibEngine
